import Mathlib

/-!
Shallow embedding of the flashcard application (`src/main.rs`): the word
store (groups of word tables of english/chinese word pairs), its mutation
operations, the JSON persistence format, the paste-text parser, and the
study-session state machine, together with theorems settling the spec
claims about them.

Rust `HashMap<String, Vec<WordTable>>` is modelled as an association list
with unique keys (the HashMap invariant); `entry/or_insert` appends a new
entry, `get_mut` mutates the value of the (unique) entry with the key.
`f32` wall-clock accumulators are modelled by `Rat`: the claims only feed
the machine deltas that are exactly representable, and on those inputs the
`f32` additions and comparisons performed by the code are exact.
-/

namespace FlashSpec

/-- Word record (`struct Word`): an english/chinese pair with its owning
group name denormalized in. -/
structure Word where
  english : String
  chinese : String
  group : String
deriving DecidableEq, Repr

/-- Word table (`struct WordTable`): a named ordered word list. -/
structure WordTable where
  name : String
  words : List Word
deriving DecidableEq, Repr

/-- The word store (`struct FlashMemory`): group name to tables, modelled
as an association list with (invariantly) unique keys. -/
structure FlashMemory where
  groups : List (String × List WordTable)
deriving DecidableEq, Repr

/-- Decimal digits of a natural number, little-endian, by fuel (the fuel
`n` always suffices).  Models the digit extraction performed by Rust's
decimal `Display` formatting. -/
def natDigitsAux : Nat → Nat → List Nat
  | 0, _ => []
  | fuel + 1, n => if n = 0 then [] else n % 10 :: natDigitsAux fuel (n / 10)

/-- Decimal digits of `n`, little-endian (empty for 0). -/
def natDigits (n : Nat) : List Nat := natDigitsAux n n

/-- The character of a decimal digit. -/
def digitChar (d : Nat) : Char := Char.ofNat (48 + d)

/-- Decimal rendering of a natural number: the embedding of Rust's
`format!("{}", n)` for an unsigned integer. -/
def natRepr (n : Nat) : String :=
  if n = 0 then "0" else ⟨(natDigits n).reverse.map digitChar⟩

/-- Value of a little-endian decimal digit list (left inverse used to
prove `natRepr` injective). -/
def ofDigits10 (l : List Nat) : Nat := l.foldr (fun d acc => d + 10 * acc) 0

/-- The candidate table names tried by `create_word_table`: the desired
name itself, then `name2`, `name3`, ... (`format!("{}{}", table_name, idx)`
with `idx = 2, 3, ...`). -/
def candidate (base : String) : Nat → String
  | 0 => base
  | k + 1 => base ++ natRepr (k + 2)

/-- Whether some table in the list already carries the name
(`tables.iter().any(|t| t.name == name)`). -/
def nameUsed (tables : List WordTable) (n : String) : Bool :=
  tables.any fun t => t.name == n

/-- Bounded search for the first index whose candidate name is free,
starting at `start`; the fuel handed to it by `resolveIdx` provably
suffices, so this is the Rust `while` loop. -/
def resolveIdxAux (tables : List WordTable) (base : String) : Nat → Nat → Nat
  | 0, start => start
  | fuel + 1, start =>
    if nameUsed tables (candidate base start) then
      resolveIdxAux tables base fuel (start + 1)
    else start

/-- Index of the first non-colliding candidate name. -/
def resolveIdx (tables : List WordTable) (base : String) : Nat :=
  resolveIdxAux tables base (tables.length + 1) 0

/-- The name actually given to a table created with desired name `base`:
the first candidate not colliding with an existing table. -/
def resolveName (tables : List WordTable) (base : String) : String :=
  candidate base (resolveIdx tables base)

/-- Whether the store has a group of this name
(`groups.contains_key(name)`). -/
def hasGroup (fm : FlashMemory) (g : String) : Bool :=
  fm.groups.any fun e => e.1 == g

/-- Tables of a group, if present (`get_word_tables_in_group` /
`groups.get(group)`). -/
def getTables? (fm : FlashMemory) (g : String) : Option (List WordTable) :=
  (fm.groups.find? fun e => e.1 == g).map (·.2)

/-- The entry API: keep the list if the key is present, otherwise insert a
fresh empty entry (`groups.entry(g).or_insert_with(Vec::new)`). -/
def entryOrInsert (gs : List (String × List WordTable)) (g : String) :
    List (String × List WordTable) :=
  if gs.any (fun e => e.1 == g) then gs else gs ++ [(g, [])]

/-- Overwrite the table list held by the entry with key `g` (the
in-place mutation through `get_mut`); first matching entry only, which is
the unique one under the HashMap key invariant. -/
def setGroupTables : List (String × List WordTable) → String → List WordTable →
    List (String × List WordTable)
  | [], _, _ => []
  | e :: rest, g, ts =>
    if e.1 == g then (e.1, ts) :: rest else e :: setGroupTables rest g ts

/-- Remove the entry with key `k`, returning its value and the remaining
entries (`groups.remove(old)`). -/
def removeKey : List (String × List WordTable) → String →
    Option (List WordTable × List (String × List WordTable))
  | [], _ => none
  | e :: rest, k =>
    if e.1 == k then some (e.2, rest)
    else (removeKey rest k).map fun p => (p.1, e :: p.2)

/-- `create_group_if_absent`. -/
def create_group_if_absent (fm : FlashMemory) (g : String) : FlashMemory :=
  ⟨entryOrInsert fm.groups g⟩

/-- `create_word_table`: ensure the group exists, resolve a non-colliding
name starting from `base`, push a new empty table. -/
def create_word_table (fm : FlashMemory) (g base : String) : FlashMemory :=
  let gs := entryOrInsert fm.groups g
  let ts := ((gs.find? fun e => e.1 == g).map (·.2)).getD []
  ⟨setGroupTables gs g (ts ++ [⟨resolveName ts base, []⟩])⟩

/-- `rename_group`: no-op success on equal names, duplicate-name error if
the new key exists, not-found error if the old key is absent, otherwise
move the table list to the new key.  The returned pair is (result,
post-state). -/
def rename_group (fm : FlashMemory) (old new : String) :
    Except String Unit × FlashMemory :=
  if old == new then (.ok (), fm)
  else if fm.groups.any (fun e => e.1 == new) then (.error "分组名已存在", fm)
  else
    match removeKey fm.groups old with
    | some (tables, rest) => (.ok (), ⟨rest ++ [(new, tables)]⟩)
    | none => (.error "原分组不存在", fm)

/-- Rename the first table carrying `old` to `new`
(`tables.iter_mut().find(...)`), if any. -/
def renameTableFirst (old new : String) : List WordTable → Option (List WordTable)
  | [] => none
  | t :: ts =>
    if t.name == old then some ({ t with name := new } :: ts)
    else (renameTableFirst old new ts).map (t :: ·)

/-- `rename_word_table`: no-op success on equal names; inside the group,
duplicate-name error if a sibling carries the new name, otherwise rename
in place; not-found errors for a missing group or table. -/
def rename_word_table (fm : FlashMemory) (g old new : String) :
    Except String Unit × FlashMemory :=
  if old == new then (.ok (), fm)
  else
    match fm.groups.find? fun e => e.1 == g with
    | none => (.error "分组不存在", fm)
    | some e =>
      if e.2.any (fun t => t.name == new) then (.error "单词表名已存在", fm)
      else
        match renameTableFirst old new e.2 with
        | some ts => (.ok (), ⟨setGroupTables fm.groups g ts⟩)
        | none => (.error "单词表不存在", fm)

/-- `delete_group`. -/
def delete_group (fm : FlashMemory) (g : String) :
    Except String Unit × FlashMemory :=
  match removeKey fm.groups g with
  | some (_, rest) => (.ok (), ⟨rest⟩)
  | none => (.error "分组不存在", fm)

/-- Overwrite the words of the first table carrying `tname`
(`tables.iter_mut().find(...)` then `table.words = words`), if any. -/
def replaceWordsFirst (tname : String) (ws : List Word) :
    List WordTable → Option (List WordTable)
  | [] => none
  | t :: ts =>
    if t.name == tname then some ({ t with words := ws } :: ts)
    else (replaceWordsFirst tname ws ts).map (t :: ·)

/-- `add_words_to_table`: overwrite (not merge) the word list of the named
table; not-found errors for a missing group or table. -/
def add_words_to_table (fm : FlashMemory) (g tname : String) (ws : List Word) :
    Except String Unit × FlashMemory :=
  match fm.groups.find? fun e => e.1 == g with
  | none => (.error "分组不存在", fm)
  | some e =>
    match replaceWordsFirst tname ws e.2 with
    | some ts => (.ok (), ⟨setGroupTables fm.groups g ts⟩)
    | none => (.error "单词表不存在", fm)

/-- Rust `char::is_whitespace` (the Unicode `White_Space` property), used
by `str::trim`. -/
def isRustWhitespace (c : Char) : Bool :=
  let n := c.toNat
  (9 ≤ n && n ≤ 13) || n == 32 || n == 0x85 || n == 0xA0 || n == 0x1680 ||
    (0x2000 ≤ n && n ≤ 0x200A) || n == 0x2028 || n == 0x2029 || n == 0x202F ||
    n == 0x205F || n == 0x3000

/-- `str::trim`: drop whitespace from both ends. -/
def trimChars (l : List Char) : List Char :=
  ((l.dropWhile isRustWhitespace).reverse.dropWhile isRustWhitespace).reverse

/-- Split a character list at every newline, keeping all (possibly empty)
segments; the underlying split of `str::lines`. -/
def splitNL : List Char → List (List Char)
  | [] => [[]]
  | c :: cs =>
    if c = '\n' then [] :: splitNL cs
    else
      match splitNL cs with
      | [] => [[c]]
      | s :: ss => (c :: s) :: ss

/-- Strip one trailing carriage return (the CR of a CRLF line ending). -/
def stripCR (l : List Char) : List Char :=
  if l.getLast? = some '\r' then l.dropLast else l

/-- Post-process the raw newline split the way `str::lines` does: every
segment that was followed by a newline loses a trailing CR; a final empty
segment (text ending in a newline, or empty text) yields no line. -/
def rustLinesAux : List (List Char) → List (List Char)
  | [] => []
  | [l] => if l = [] then [] else [l]
  | l :: ls => stripCR l :: rustLinesAux ls

/-- Rust `str::lines`. -/
def rustLines (s : String) : List String :=
  (rustLinesAux (splitNL s.data)).map fun l => ⟨l⟩

/-- Split a character list at its first space character, returning the
parts before and after it (`line.find(' ')` plus the two slices). -/
def splitAtSpace : List Char → Option (List Char × List Char)
  | [] => none
  | c :: cs =>
    if c = ' ' then some ([], cs)
    else (splitAtSpace cs).map fun p => (c :: p.1, p.2)

/-- One iteration of the parser loop in `parse_words_from_text`: trim the
line, skip it when blank, split at the first space, trim both segments,
and keep the word only when both segments are non-empty. -/
def lineToWord (group rawLine : String) : Option Word :=
  let line := trimChars rawLine.data
  if line.isEmpty then none
  else
    match splitAtSpace line with
    | none => none
    | some (a, b) =>
      let e := trimChars a
      let c := trimChars b
      if e.isEmpty || c.isEmpty then none
      else some ⟨⟨e⟩, ⟨c⟩, group⟩

/-- The `for line in text.lines()` accumulation loop of
`parse_words_from_text`. -/
def parseLinesLoop (group : String) : List String → List Word
  | [] => []
  | l :: ls =>
    match lineToWord group l with
    | some w => w :: parseLinesLoop group ls
    | none => parseLinesLoop group ls

/-- `parse_words_from_text`. -/
def parse_words_from_text (text group : String) : List Word :=
  parseLinesLoop group (rustLines text)

/-- `Vec<&str>::join("\n")` as used by the save-button handler. -/
def joinNL : List String → String
  | [] => ""
  | [l] => l
  | l :: ls => l ++ "\n" ++ joinNL ls

/-- The save-button handler of the table editor: count the lines, keep the
first 100, parse them, warn when lines were dropped, and either report
that nothing parsed or overwrite the table's words and report the count.
Returns the post-state of the store together with the in-order list of
`show_message` calls (the message field itself retains only the last of
them; the disk write in `auto_save` is outside the store model). -/
def saveTableHandler (content g tname : String) (fm : FlashMemory) :
    FlashMemory × List String :=
  let totalLines := (rustLines content).length
  let limited := joinNL ((rustLines content).take 100)
  let words := parse_words_from_text limited g
  let warn := if totalLines > 100 then ["超过100行，仅保存前100行"] else []
  if words.isEmpty then (fm, warn ++ ["没有找到有效的单词格式"])
  else
    match add_words_to_table fm g tname words with
    | (.ok _, fm2) => (fm2, warn ++ ["成功保存 " ++ natRepr words.length ++ " 个单词"])
    | (.error e, fm2) => (fm2, warn ++ ["保存失败: " ++ e])

/-- JSON documents, restricted to the forms the store serializes to. -/
inductive Json where
  | str : String → Json
  | arr : List Json → Json
  | obj : List (String × Json) → Json

/-- Serialization of a `Word` as derived by serde: an object with the
fields in declaration order. -/
def wordToJson (w : Word) : Json :=
  .obj [("english", .str w.english), ("chinese", .str w.chinese), ("group", .str w.group)]

/-- Serialization of a `WordTable` as derived by serde. -/
def tableToJson (t : WordTable) : Json :=
  .obj [("name", .str t.name), ("words", .arr (t.words.map wordToJson))]

/-- Serialization of the whole store (`serde_json::to_string_pretty` in
`save_to_file`, modelled at the JSON document level; the textual
rendering and the file write are serde_json and std library code). -/
def flashMemoryToJson (fm : FlashMemory) : Json :=
  .obj [("groups", .obj (fm.groups.map fun e => (e.1, .arr (e.2.map tableToJson))))]

/-- Field lookup in a JSON object. -/
def getField? (fields : List (String × Json)) (k : String) : Option Json :=
  (fields.find? fun f => f.1 == k).map (·.2)

/-- Deserialization of a `Word` as derived by serde. -/
def wordFromJson : Json → Option Word
  | .obj fs =>
    match getField? fs "english", getField? fs "chinese", getField? fs "group" with
    | some (.str e), some (.str c), some (.str g) => some ⟨e, c, g⟩
    | _, _, _ => none
  | _ => none

/-- Deserialization of a `WordTable` as derived by serde. -/
def tableFromJson : Json → Option WordTable
  | .obj fs =>
    match getField? fs "name", getField? fs "words" with
    | some (.str n), some (.arr ws) => (ws.mapM wordFromJson).map fun l => ⟨n, l⟩
    | _, _ => none
  | _ => none

/-- HashMap insertion (`insert` replaces the value when the key exists),
used when deserializing the group map entry by entry. -/
def insertGroupEntry (gs : List (String × List WordTable)) (k : String)
    (v : List WordTable) : List (String × List WordTable) :=
  if gs.any (fun e => e.1 == k) then setGroupTables gs k v else gs ++ [(k, v)]

/-- Deserialize one group map entry: key plus array of tables. -/
def groupEntryFromJson (e : String × Json) : Option (String × List WordTable) :=
  match e.2 with
  | .arr ts => (ts.mapM tableFromJson).map fun l => (e.1, l)
  | _ => none

/-- Deserialization of the whole store (`serde_json::from_str` in
`load_from_file`, modelled at the JSON document level): the object must
carry a `groups` field whose entries are folded into the map. -/
def flashMemoryFromJson : Json → Option FlashMemory
  | .obj fs =>
    match getField? fs "groups" with
    | some (.obj entries) =>
      (entries.mapM groupEntryFromJson).map fun l =>
        ⟨l.foldl (fun acc e => insertGroupEntry acc e.1 e.2) []⟩
    | _ => none
  | _ => none

/-- The study-session modes (`enum FlashMode`). -/
inductive FlashMode where
  | Preview
  | Started
  | Paused
deriving DecidableEq, Repr

/-- The per-session scalar state of `FlashMemoryApp` (the fields driven by
the study state machine and the transient message surface; `Instant` is
modelled as rational wall-clock seconds). -/
structure AppSession where
  flash_mode : FlashMode
  flash_index : Nat
  flash_timer : Rat
  countdown_remaining : Int
  countdown_timer : Rat
  current_page : Nat
  last_tick : Rat
  message : String
  message_timer : Rat
deriving DecidableEq, Repr

/-- `show_message`: set the transient message and its 3-second expiry. -/
def showMessage (m : String) (s : AppSession) : AppSession :=
  { s with message := m, message_timer := 3 }

/-- The session fields of `FlashMemoryApp::default()`. -/
def initApp : AppSession :=
  { flash_mode := .Preview, flash_index := 0, flash_timer := 0,
    countdown_remaining := 0, countdown_timer := 0, current_page := 0,
    last_tick := 0, message := "", message_timer := 0 }

/-- The start-button handler: enabled only in `Preview`; rejects an empty
word table with a message, otherwise enters `Started` with the index and
both accumulators reset, the countdown at 3, and the clock recorded.
`wordsLen` is the length of `get_current_words()`. -/
def startButton (now : Rat) (wordsLen : Nat) (s : AppSession) : AppSession :=
  if s.flash_mode = .Preview then
    if wordsLen = 0 then showMessage "当前单词表为空，无法开始" s
    else
      { s with flash_mode := .Started, flash_index := 0, flash_timer := 0,
               countdown_remaining := 3, countdown_timer := 0, last_tick := now }
  else s

/-- The per-frame autonomous advance of the study state machine (the
non-`Preview` branch of the word display area): runs only when a word is
displayable (`all_words` non-empty) and the mode is `Started`; consumes
the wall-clock delta into the countdown or the per-word timer, advancing
the word index or ending the session back to `Preview`. -/
def flashAdvance (now : Rat) (wordsLen : Nat) (s : AppSession) : AppSession :=
  if wordsLen = 0 then s
  else
    match s.flash_mode with
    | .Preview => s
    | _ =>
      if s.flash_mode = .Started then
        let dt := now - s.last_tick
        let s := { s with last_tick := now }
        if (0 : Int) < s.countdown_remaining then
          let ct := s.countdown_timer + dt
          if ct ≥ 1 then
            let s := { s with countdown_remaining := s.countdown_remaining - 1,
                              countdown_timer := 0 }
            if s.countdown_remaining = 0 then { s with flash_timer := 0 } else s
          else { s with countdown_timer := ct }
        else
          let ft := s.flash_timer + dt
          if ft ≥ 2 then
            let s := { s with flash_timer := 0 }
            if s.flash_index + 1 < wordsLen then
              { s with flash_index := s.flash_index + 1 }
            else
              showMessage "本轮学习结束"
                { s with flash_mode := .Preview, current_page := 0 }
          else { s with flash_timer := ft }
      else s

/-! ## Helper lemmas -/

theorem find?_setGroupTables_ne (gs : List (String × List WordTable))
    (g g' : String) (ts : List WordTable) (h : g' ≠ g) :
    (setGroupTables gs g ts).find? (fun e => e.1 == g') =
      gs.find? (fun e => e.1 == g') := by
  induction gs with
  | nil => rfl
  | cons e rest ih =>
    simp only [setGroupTables]
    by_cases he : e.1 = g
    · have h2 : (e.1 == g') = false := by
        rw [beq_eq_false_iff_ne]
        exact fun hx => h (hx.symm.trans he)
      rw [if_pos (by simp [he])]
      rw [List.find?_cons_of_neg _ (by simp [h2]),
        List.find?_cons_of_neg _ (by simpa using h2)]
    · rw [if_neg (by simp [he])]
      by_cases he' : e.1 = g'
      · rw [List.find?_cons_of_pos _ (by simp [he']),
          List.find?_cons_of_pos _ (by simp [he'])]
      · rw [List.find?_cons_of_neg _ (by simp [he']),
          List.find?_cons_of_neg _ (by simp [he']), ih]

theorem find?_setGroupTables_self (gs : List (String × List WordTable))
    (g : String) (ts : List WordTable)
    (h : ∃ e ∈ gs, e.1 = g) :
    (setGroupTables gs g ts).find? (fun e => e.1 == g) = some (g, ts) := by
  induction gs with
  | nil => simp at h
  | cons e rest ih =>
    by_cases he : e.1 = g
    · simp [setGroupTables, he, List.find?]
    · have hg : (e.1 == g) = false := by simp [he]
      have h' : ∃ e ∈ rest, e.1 = g := by
        rcases h with ⟨x, hx, hxg⟩
        rcases List.mem_cons.mp hx with rfl | hx'
        · exact (he hxg).elim
        · exact ⟨x, hx', hxg⟩
      simp [setGroupTables, hg, List.find?, ih h']

theorem replaceWordsFirst_some (tname : String) (ws : List Word)
    (pre post : List WordTable) (tb : WordTable)
    (hpre : ∀ x ∈ pre, x.name ≠ tname) (htb : tb.name = tname) :
    replaceWordsFirst tname ws (pre ++ tb :: post) =
      some (pre ++ { tb with words := ws } :: post) := by
  induction pre with
  | nil => simp [replaceWordsFirst, htb]
  | cons x rest ih =>
    have hx : (x.name == tname) = false := by
      simp only [beq_eq_false_iff_ne, ne_eq]
      exact hpre x (List.mem_cons_self x rest)
    have ih' := ih fun y hy => hpre y (List.mem_cons_of_mem x hy)
    simp [replaceWordsFirst, hx, ih']

theorem replaceWordsFirst_none (tname : String) (ws : List Word)
    (ts : List WordTable) (h : ∀ x ∈ ts, x.name ≠ tname) :
    replaceWordsFirst tname ws ts = none := by
  induction ts with
  | nil => rfl
  | cons x rest ih =>
    have hx : (x.name == tname) = false := by
      simp only [beq_eq_false_iff_ne, ne_eq]
      exact h x (List.mem_cons_self x rest)
    have ih' := ih fun y hy => h y (List.mem_cons_of_mem x hy)
    simp [replaceWordsFirst, hx, ih']

theorem getTables?_none_iff (fm : FlashMemory) (g : String) :
    getTables? fm g = none ↔ fm.groups.find? (fun e => e.1 == g) = none := by
  unfold getTables?
  cases fm.groups.find? fun e => e.1 == g <;> simp

theorem getTables?_some (fm : FlashMemory) (g : String) (ts : List WordTable)
    (h : getTables? fm g = some ts) :
    ∃ e, fm.groups.find? (fun e => e.1 == g) = some e ∧ e.1 = g ∧ e.2 = ts := by
  unfold getTables? at h
  cases hf : fm.groups.find? fun e => e.1 == g with
  | none => rw [hf] at h; simp at h
  | some e =>
    rw [hf] at h
    simp at h
    refine ⟨e, rfl, ?_, by simpa using h⟩
    have := List.find?_some hf
    simpa using this

theorem find?_mem_keys (gs : List (String × List WordTable)) (g : String)
    (e : String × List WordTable) (h : gs.find? (fun e => e.1 == g) = some e) :
    ∃ x ∈ gs, x.1 = g := by
  refine ⟨e, List.mem_of_find?_eq_some h, ?_⟩
  have := List.find?_some h
  simpa using this

/-! ## Claim theorems -/

/-- C5: renaming a group to its own name, and renaming a table to its own
name, always return success and leave the store untouched — including
when the group or the table does not exist, since the same-name check is
performed before any lookup. -/
theorem rename_self_noop (fm : FlashMemory) (g grp t : String) :
    rename_group fm g g = (.ok (), fm) ∧
      rename_word_table fm grp t t = (.ok (), fm) := by
  constructor
  · simp [rename_group]
  · unfold rename_word_table
    simp

/-- C6: the parser splits the pasted text into lines, trims each line,
skips the blank ones, splits every surviving line at its first space into
an english part and a trimmed chinese part that may keep internal spaces,
and silently drops lines without a space; on the sample input this yields
exactly the two expected words tagged with the supplied group. -/
theorem parse_example_two_words :
    parse_words_from_text "cat 猫\n\ndog   跑 步\nnoSpaceHere\n   \n" "g" =
      [⟨"cat", "猫", "g"⟩, ⟨"dog", "跑 步", "g"⟩] := by decide

/-- C8: with the session in `Preview`, pressing start on an empty word
table only surfaces the rejection message (every session scalar is left
unchanged and the mode stays `Preview`), while on a non-empty table it
enters `Started` with the word index reset to 0, the countdown at 3, both
elapsed accumulators cleared, and the current timestamp recorded. -/
theorem start_button_spec (s : AppSession) (now : Rat) (len : Nat)
    (h : s.flash_mode = .Preview) :
    (len = 0 → startButton now len s =
      { s with message := "当前单词表为空，无法开始", message_timer := 3 }) ∧
    (0 < len → startButton now len s =
      { s with flash_mode := .Started, flash_index := 0, flash_timer := 0,
               countdown_remaining := 3, countdown_timer := 0, last_tick := now }) := by
  constructor
  · intro h0
    simp [startButton, showMessage, h, h0]
  · intro h0
    have : len ≠ 0 := Nat.pos_iff_ne_zero.mp h0
    simp [startButton, showMessage, h, this]

/-- Witness for C8: concrete start presses from the default session. -/
theorem start_button_spec_witness :
    startButton 1 0 initApp =
      { initApp with message := "当前单词表为空，无法开始", message_timer := 3 } :=
  (start_button_spec initApp 1 0 rfl).1 rfl

/-- C1: starting a session over a 2-word table and feeding the advance
step the wall-clock instants 1, 2, 3 (three 1-second deltas consuming the
countdown), then 5 and 7 (two 2-second deltas), advances the word index
from 0 to 1 on the first 2-second delta and, on the second, returns the
session to `Preview` with the completion message while the index stays at
the last word; moreover a single advance step never moves the index past
the last word and never decreases it (no wrap-around). -/
theorem study_timing_two_words :
    (let s0 := startButton 0 2 initApp
     let s1 := flashAdvance 1 2 s0
     let s2 := flashAdvance 2 2 s1
     let s3 := flashAdvance 3 2 s2
     let s4 := flashAdvance 5 2 s3
     let s5 := flashAdvance 7 2 s4
     s3.countdown_remaining = 0 ∧ s3.flash_index = 0 ∧ s3.flash_mode = .Started ∧
     s4.flash_index = 1 ∧ s4.flash_mode = .Started ∧
     s5.flash_mode = .Preview ∧ s5.message = "本轮学习结束" ∧ s5.flash_index = 1) ∧
    (∀ (now : Rat) (n : Nat) (s : AppSession), s.flash_index < n →
      (flashAdvance now n s).flash_index < n ∧
      s.flash_index ≤ (flashAdvance now n s).flash_index) := by
  constructor
  · norm_num [flashAdvance, startButton, initApp, showMessage]
  · intro now n s h
    unfold flashAdvance showMessage
    dsimp only
    repeat' split
    all_goals simp_all

/-- Witness for C1: the no-overrun conjunct at a concrete state. -/
theorem study_timing_two_words_witness :
    (flashAdvance 1 2 initApp).flash_index < 2 ∧
      initApp.flash_index ≤ (flashAdvance 1 2 initApp).flash_index :=
  study_timing_two_words.2 1 2 initApp (by decide)

/-- C4: renaming a group to a name already held by another group, and
renaming a table to a name already held by a sibling table of the same
group, fail with the duplicate-name error and return the store exactly as
it was (check-then-write: nothing is mutated on the failure path). -/
theorem rename_collision_rejected (fm : FlashMemory)
    (old new g told tnew : String) :
    (old ≠ new → hasGroup fm new = true →
      rename_group fm old new = (.error "分组名已存在", fm)) ∧
    (told ≠ tnew → ∀ ts, getTables? fm g = some ts →
      (∃ tb ∈ ts, tb.name = tnew) →
      rename_word_table fm g told tnew = (.error "单词表名已存在", fm)) := by
  constructor
  · intro hne hdup
    have h1 : (old == new) = false := by simp [hne]
    unfold rename_group
    rw [h1]
    unfold hasGroup at hdup
    simp [hdup]
  · intro hne ts hts hdup
    obtain ⟨e, hfind, _, hets⟩ := getTables?_some fm g ts hts
    have h1 : (told == tnew) = false := by simp [hne]
    have h2 : e.2.any (fun t => t.name == tnew) = true := by
      rcases hdup with ⟨tb, htb, hname⟩
      refine List.any_eq_true.mpr ⟨tb, ?_, by simp [hname]⟩
      rw [hets]; exact htb
    unfold rename_word_table
    rw [h1]
    simp only [hfind, h2]
    simp

/-- Witness for C4: both collision rejections on a concrete store. -/
theorem rename_collision_rejected_witness :
    rename_group ⟨[("A", []), ("B", [⟨"x", []⟩, ⟨"y", []⟩])]⟩ "A" "B" =
        (.error "分组名已存在", ⟨[("A", []), ("B", [⟨"x", []⟩, ⟨"y", []⟩])]⟩) ∧
      rename_word_table ⟨[("A", []), ("B", [⟨"x", []⟩, ⟨"y", []⟩])]⟩ "B" "x" "y" =
        (.error "单词表名已存在", ⟨[("A", []), ("B", [⟨"x", []⟩, ⟨"y", []⟩])]⟩) := by
  constructor
  · exact (rename_collision_rejected _ "A" "B" "B" "x" "y").1 (by decide) (by decide)
  · exact (rename_collision_rejected _ "A" "B" "B" "x" "y").2 (by decide)
      [⟨"x", []⟩, ⟨"y", []⟩] (by decide) ⟨⟨"y", []⟩, by decide, rfl⟩

/-- C9: replacing a table's words fails with the not-found error and
returns the store untouched when the group or the table is absent;
otherwise it succeeds, the target table (the first one carrying the name)
keeps its name but holds exactly the supplied words — the previous
contents are discarded, nothing is appended or merged — the sibling
tables before and after it are unchanged, and every other group is
unchanged. -/
theorem replace_table_words_spec (fm : FlashMemory) (g tname : String)
    (ws : List Word) :
    (getTables? fm g = none →
      add_words_to_table fm g tname ws = (.error "分组不存在", fm)) ∧
    (∀ ts, getTables? fm g = some ts → (∀ tb ∈ ts, tb.name ≠ tname) →
      add_words_to_table fm g tname ws = (.error "单词表不存在", fm)) ∧
    (∀ pre tb post, getTables? fm g = some (pre ++ tb :: post) →
      (∀ x ∈ pre, x.name ≠ tname) → tb.name = tname →
      (add_words_to_table fm g tname ws).1 = .ok () ∧
      getTables? (add_words_to_table fm g tname ws).2 g =
        some (pre ++ { tb with words := ws } :: post) ∧
      (∀ g', g' ≠ g →
        getTables? (add_words_to_table fm g tname ws).2 g' = getTables? fm g')) := by
  refine ⟨?_, ?_, ?_⟩
  · intro h
    rw [getTables?_none_iff] at h
    unfold add_words_to_table
    rw [h]
  · intro ts hts habs
    obtain ⟨e, hfind, _, hets⟩ := getTables?_some fm g ts hts
    unfold add_words_to_table
    rw [hfind]
    dsimp only
    rw [hets, replaceWordsFirst_none tname ws ts habs]
  · intro pre tb post hts hpre htb
    obtain ⟨e, hfind, heg, hets⟩ := getTables?_some fm g (pre ++ tb :: post) hts
    have hrepl := replaceWordsFirst_some tname ws pre post tb hpre htb
    unfold add_words_to_table
    rw [hfind]
    dsimp only
    rw [hets, hrepl]
    dsimp only
    refine ⟨rfl, ?_, ?_⟩
    · unfold getTables?
      rw [find?_setGroupTables_self fm.groups g _ (find?_mem_keys _ _ _ hfind)]
      rfl
    · intro g' hg'
      unfold getTables?
      rw [find?_setGroupTables_ne fm.groups g g' _ hg']

/-- Witness for C9: the success path on a concrete three-table group. -/
theorem replace_table_words_spec_witness :
    (add_words_to_table ⟨[("g", [⟨"a", []⟩, ⟨"t", [⟨"old", "旧", "g"⟩]⟩, ⟨"b", []⟩])]⟩
        "g" "t" [⟨"new", "新", "g"⟩]).1 = .ok () ∧
      getTables? (add_words_to_table ⟨[("g", [⟨"a", []⟩, ⟨"t", [⟨"old", "旧", "g"⟩]⟩, ⟨"b", []⟩])]⟩
        "g" "t" [⟨"new", "新", "g"⟩]).2 "g" =
        some [⟨"a", []⟩, ⟨"t", [⟨"new", "新", "g"⟩]⟩, ⟨"b", []⟩] ∧
      (∀ g', g' ≠ "g" →
        getTables? (add_words_to_table ⟨[("g", [⟨"a", []⟩, ⟨"t", [⟨"old", "旧", "g"⟩]⟩, ⟨"b", []⟩])]⟩
          "g" "t" [⟨"new", "新", "g"⟩]).2 g' =
        getTables? ⟨[("g", [⟨"a", []⟩, ⟨"t", [⟨"old", "旧", "g"⟩]⟩, ⟨"b", []⟩])]⟩ g') :=
  (replace_table_words_spec ⟨[("g", [⟨"a", []⟩, ⟨"t", [⟨"old", "旧", "g"⟩]⟩, ⟨"b", []⟩])]⟩
      "g" "t" [⟨"new", "新", "g"⟩]).2.2 [⟨"a", []⟩] ⟨"t", [⟨"old", "旧", "g"⟩]⟩ [⟨"b", []⟩]
    (by decide) (by decide) rfl

theorem ofDigits10_natDigitsAux (fuel : Nat) :
    ∀ n, n ≤ fuel → ofDigits10 (natDigitsAux fuel n) = n := by
  induction fuel with
  | zero =>
    intro n hn
    have : n = 0 := Nat.le_zero.mp hn
    subst this
    rfl
  | succ fuel ih =>
    intro n hn
    by_cases hne : n = 0
    · subst hne; rfl
    · have hdiv : n / 10 ≤ fuel := by
        have : n / 10 < n := Nat.div_lt_self (Nat.pos_of_ne_zero hne) (by norm_num)
        omega
      simp only [natDigitsAux, if_neg hne, ofDigits10, List.foldr_cons]
      have := ih (n / 10) hdiv
      unfold ofDigits10 at this
      rw [this, Nat.mod_add_div]

theorem natDigitsAux_lt (fuel : Nat) :
    ∀ n, ∀ d ∈ natDigitsAux fuel n, d < 10 := by
  induction fuel with
  | zero => intro n d hd; simp [natDigitsAux] at hd
  | succ fuel ih =>
    intro n d hd
    by_cases hne : n = 0
    · simp [natDigitsAux, hne] at hd
    · simp only [natDigitsAux, if_neg hne] at hd
      rcases List.mem_cons.mp hd with rfl | hd'
      · exact Nat.mod_lt _ (by norm_num)
      · exact ih _ d hd'

theorem natDigits_inj (a b : Nat) (h : natDigits a = natDigits b) : a = b := by
  have ha := ofDigits10_natDigitsAux a a le_rfl
  have hb := ofDigits10_natDigitsAux b b le_rfl
  unfold natDigits at h
  rw [← ha, ← hb, h]

theorem natDigits_ne_nil (n : Nat) (h : n ≠ 0) : natDigits n ≠ [] := by
  unfold natDigits
  cases n with
  | zero => exact absurd rfl h
  | succ m => simp [natDigitsAux]

theorem digitChar_inj : ∀ d1 < 10, ∀ d2 < 10, digitChar d1 = digitChar d2 → d1 = d2 := by
  decide

theorem map_digitChar_inj (l1 : List Nat) :
    ∀ l2, (∀ d ∈ l1, d < 10) → (∀ d ∈ l2, d < 10) →
      l1.map digitChar = l2.map digitChar → l1 = l2 := by
  induction l1 with
  | nil =>
    intro l2 _ _ h
    cases l2 with
    | nil => rfl
    | cons d t => simp at h
  | cons d t ih =>
    intro l2 h1 h2 h
    cases l2 with
    | nil => simp at h
    | cons d' t' =>
      simp only [List.map_cons, List.cons.injEq] at h
      have hd := digitChar_inj d (h1 d (by simp)) d' (h2 d' (by simp)) h.1
      rw [hd, ih t' (fun x hx => h1 x (by simp [hx])) (fun x hx => h2 x (by simp [hx])) h.2]

theorem natRepr_eq_zero (n : Nat) (h : natRepr n = "0") : n = 0 := by
  by_contra hn
  unfold natRepr at h
  rw [if_neg hn] at h
  have hdata : (natDigits n).reverse.map digitChar = ['0'] := congrArg String.data h
  have h2 : (natDigits n).reverse = [0] :=
    map_digitChar_inj _ [0]
      (fun d hd => natDigitsAux_lt _ _ d (List.mem_reverse.mp hd)) (by decide)
      (by rw [hdata]; rfl)
  have h3 : natDigitsAux n n = [0] := by simpa [natDigits] using congrArg List.reverse h2
  have h4 := ofDigits10_natDigitsAux n n le_rfl
  rw [h3] at h4
  simp [ofDigits10] at h4
  exact hn h4.symm

theorem natRepr_inj (a b : Nat) (h : natRepr a = natRepr b) : a = b := by
  by_cases ha : a = 0
  · subst ha
    exact (natRepr_eq_zero b h.symm).symm
  · by_cases hb : b = 0
    · subst hb
      exact natRepr_eq_zero a h
    · unfold natRepr at h
      rw [if_neg ha, if_neg hb] at h
      have hdata : (natDigits a).reverse.map digitChar = (natDigits b).reverse.map digitChar :=
        congrArg String.data h
      have h2 := map_digitChar_inj _ _
        (fun d hd => natDigitsAux_lt _ _ d (List.mem_reverse.mp hd))
        (fun d hd => natDigitsAux_lt _ _ d (List.mem_reverse.mp hd)) hdata
      have h3 : natDigits a = natDigits b := by simpa using congrArg List.reverse h2
      exact natDigits_inj a b h3

theorem natRepr_ne_nil (n : Nat) : (natRepr n).data ≠ [] := by
  unfold natRepr
  by_cases hn : n = 0
  · rw [if_pos hn]; simp
  · rw [if_neg hn]
    intro hc
    have hc' : (natDigits n).reverse.map digitChar = [] := hc
    simp only [List.map_eq_nil_iff, List.reverse_eq_nil_iff] at hc'
    exact natDigits_ne_nil n hn hc'

theorem candidate_inj (base : String) (i j : Nat)
    (h : candidate base i = candidate base j) : i = j := by
  cases i with
  | zero =>
    cases j with
    | zero => rfl
    | succ k =>
      exfalso
      have hd : base.data = base.data ++ (natRepr (k + 2)).data := by
        have := congrArg String.data h
        simpa [candidate] using this
      have hlen := congrArg List.length hd
      rw [List.length_append] at hlen
      have hz : ((natRepr (k + 2)).data).length = 0 := by omega
      exact natRepr_ne_nil _ (List.length_eq_zero.mp hz)
  | succ k1 =>
    cases j with
    | zero =>
      exfalso
      have hd : base.data = base.data ++ (natRepr (k1 + 2)).data := by
        have := congrArg String.data h.symm
        simpa [candidate] using this
      have hlen := congrArg List.length hd
      rw [List.length_append] at hlen
      have hz : ((natRepr (k1 + 2)).data).length = 0 := by omega
      exact natRepr_ne_nil _ (List.length_eq_zero.mp hz)
    | succ k2 =>
      have hd : base.data ++ (natRepr (k1 + 2)).data =
          base.data ++ (natRepr (k2 + 2)).data := by
        have := congrArg String.data h
        simpa [candidate] using this
      have h2 := List.append_cancel_left hd
      have hs : natRepr (k1 + 2) = natRepr (k2 + 2) := congrArg String.mk h2
      have := natRepr_inj _ _ hs
      omega

theorem exists_fresh_candidate (ts : List WordTable) (base : String) :
    ∃ k, k ≤ ts.length ∧ nameUsed ts (candidate base k) = false := by
  by_contra hcon
  push_neg at hcon
  have hused : ∀ k ∈ Finset.range (ts.length + 1),
      candidate base k ∈ (ts.map WordTable.name).toFinset := by
    intro k hk
    have hk' : k ≤ ts.length := by
      have := Finset.mem_range.mp hk
      omega
    have hne := hcon k hk'
    have hb : nameUsed ts (candidate base k) = true := by
      cases hx : nameUsed ts (candidate base k) with
      | false => exact absurd hx hne
      | true => rfl
    unfold nameUsed at hb
    rcases List.any_eq_true.mp hb with ⟨t, ht, hname⟩
    rw [List.mem_toFinset, List.mem_map]
    exact ⟨t, ht, by simpa using hname⟩
  have hinj : Set.InjOn (candidate base) (Finset.range (ts.length + 1)) :=
    fun i _ j _ h => candidate_inj base i j h
  have hcard := Finset.card_le_card_of_injOn (candidate base) hused hinj
  have h1 : (ts.map WordTable.name).toFinset.card ≤ ts.length := by
    have := List.toFinset_card_le (ts.map WordTable.name)
    simpa using this
  rw [Finset.card_range] at hcard
  omega

theorem resolveIdxAux_spec (ts : List WordTable) (base : String) :
    ∀ (fuel start : Nat),
      (∃ j, start ≤ j ∧ j < start + fuel ∧ nameUsed ts (candidate base j) = false) →
      nameUsed ts (candidate base (resolveIdxAux ts base fuel start)) = false ∧
      start ≤ resolveIdxAux ts base fuel start ∧
      ∀ j, start ≤ j → j < resolveIdxAux ts base fuel start →
        nameUsed ts (candidate base j) = true := by
  intro fuel
  induction fuel with
  | zero =>
    intro start h
    obtain ⟨j, h1, h2, _⟩ := h
    omega
  | succ fuel ih =>
    intro start hex
    simp only [resolveIdxAux]
    by_cases hu : nameUsed ts (candidate base start) = true
    · rw [if_pos hu]
      have hex' : ∃ j, start + 1 ≤ j ∧ j < start + 1 + fuel ∧
          nameUsed ts (candidate base j) = false := by
        rcases hex with ⟨j, h1, h2, h3⟩
        refine ⟨j, ?_, by omega, h3⟩
        rcases Nat.eq_or_lt_of_le h1 with rfl | hlt
        · rw [h3] at hu; cases hu
        · omega
      obtain ⟨ha, hb, hc⟩ := ih (start + 1) hex'
      refine ⟨ha, by omega, ?_⟩
      intro j hj1 hj2
      rcases Nat.eq_or_lt_of_le hj1 with rfl | hlt
      · exact hu
      · exact hc j hlt hj2
    · have hu' : nameUsed ts (candidate base start) = false := by
        cases hx : nameUsed ts (candidate base start) with
        | false => rfl
        | true => exact absurd hx hu
      rw [if_neg (by simp [hu'])]
      exact ⟨hu', le_rfl, fun j h1 h2 => by omega⟩

theorem resolveIdx_spec (ts : List WordTable) (base : String) :
    nameUsed ts (candidate base (resolveIdx ts base)) = false ∧
      ∀ j < resolveIdx ts base, nameUsed ts (candidate base j) = true := by
  obtain ⟨k, hk, hfree⟩ := exists_fresh_candidate ts base
  have h := resolveIdxAux_spec ts base (ts.length + 1) 0 ⟨k, by omega, by omega, hfree⟩
  exact ⟨h.1, fun j hj => h.2.2 j (by omega) hj⟩

theorem find?_append_orElse {α : Type} (p : α → Bool) (l1 l2 : List α) :
    (l1 ++ l2).find? p = (l1.find? p).orElse fun _ => l2.find? p := by
  induction l1 with
  | nil => rfl
  | cons a t ih =>
    by_cases ha : p a = true
    · simp [List.find?_cons_of_pos _ ha]
    · have ha' : ¬ p a = true := ha
      rw [List.cons_append, List.find?_cons_of_neg _ ha', List.find?_cons_of_neg _ ha', ih]

theorem find?_entryOrInsert_self (gs : List (String × List WordTable)) (g : String) :
    ((entryOrInsert gs g).find? (fun e => e.1 == g)).map (·.2) =
      some (((gs.find? (fun e => e.1 == g)).map (·.2)).getD []) := by
  unfold entryOrInsert
  by_cases h : gs.any (fun e => e.1 == g) = true
  · rw [if_pos h]
    rcases List.any_eq_true.mp h with ⟨x, hx, hpx⟩
    have hsome : (gs.find? fun e => e.1 == g).isSome := by
      rw [List.find?_isSome]
      exact ⟨x, hx, hpx⟩
    obtain ⟨e, he⟩ := Option.isSome_iff_exists.mp hsome
    rw [he]
    rfl
  · rw [if_neg h]
    have hnone : gs.find? (fun e => e.1 == g) = none := by
      rw [List.find?_eq_none]
      intro x hx hpx
      exact h (List.any_eq_true.mpr ⟨x, hx, hpx⟩)
    rw [find?_append_orElse, hnone]
    simp [List.find?]

theorem find?_entryOrInsert_ne (gs : List (String × List WordTable)) (g g' : String)
    (h : g' ≠ g) :
    (entryOrInsert gs g).find? (fun e => e.1 == g') = gs.find? (fun e => e.1 == g') := by
  unfold entryOrInsert
  by_cases hany : gs.any (fun e => e.1 == g) = true
  · rw [if_pos hany]
  · rw [if_neg hany, find?_append_orElse]
    have : ([((g, []) : String × List WordTable)].find? fun e => e.1 == g') = none := by
      have hgg : (g == g') = false := by
        rw [beq_eq_false_iff_ne]
        exact fun hx => h hx.symm
      simp [List.find?, hgg]
    rw [this]
    cases gs.find? fun e => e.1 == g' <;> rfl

theorem mem_entryOrInsert_self (gs : List (String × List WordTable)) (g : String) :
    ∃ e ∈ entryOrInsert gs g, e.1 = g := by
  unfold entryOrInsert
  by_cases h : gs.any (fun e => e.1 == g) = true
  · rw [if_pos h]
    rcases List.any_eq_true.mp h with ⟨x, hx, hpx⟩
    exact ⟨x, hx, by simpa using hpx⟩
  · rw [if_neg h]
    exact ⟨(g, []), by simp, rfl⟩

/-- C2: table creation always succeeds, appending to the (possibly freshly
created) group exactly one new empty table named with the first candidate
from the sequence desired, desired2, desired3, ... that collides with no
existing table of that group; every other group is untouched, name
uniqueness inside the group is preserved, and in particular creating
table `T` next to existing `T` and `T2` yields `T3`. -/
theorem create_table_resolves_name (fm : FlashMemory) (g base : String) :
    (∃ k,
      (∀ t ∈ (getTables? fm g).getD [], t.name ≠ candidate base k) ∧
      (∀ j < k, ∃ t ∈ (getTables? fm g).getD [], t.name = candidate base j) ∧
      getTables? (create_word_table fm g base) g =
        some ((getTables? fm g).getD [] ++ [⟨candidate base k, []⟩]) ∧
      (∀ g', g' ≠ g →
        getTables? (create_word_table fm g base) g' = getTables? fm g') ∧
      ((((getTables? fm g).getD []).map WordTable.name).Nodup →
        ((((getTables? fm g).getD []) ++ [(⟨candidate base k, []⟩ : WordTable)]).map WordTable.name).Nodup)) ∧
    getTables? (create_word_table (⟨[("G", [⟨"T", []⟩, ⟨"T2", []⟩])]⟩ : FlashMemory) "G" "T") "G" =
      some [⟨"T", []⟩, ⟨"T2", []⟩, ⟨"T3", []⟩] := by
  constructor
  · have hts : ((entryOrInsert fm.groups g).find? (fun e => e.1 == g)).map (·.2) =
        some ((getTables? fm g).getD []) := find?_entryOrInsert_self fm.groups g
    set ts := (getTables? fm g).getD [] with hts_def
    have hcw : create_word_table fm g base =
        ⟨setGroupTables (entryOrInsert fm.groups g) g
          (ts ++ [⟨resolveName ts base, []⟩])⟩ := by
      unfold create_word_table
      dsimp only
      rw [hts]
      rfl
    obtain ⟨hfree, hmin⟩ := resolveIdx_spec ts base
    refine ⟨resolveIdx ts base, ?_, ?_, ?_, ?_, ?_⟩
    · intro t ht
      have := List.any_eq_false.mp (by unfold nameUsed at hfree; exact hfree) t ht
      simpa using this
    · intro j hj
      rcases List.any_eq_true.mp (by unfold nameUsed at hmin; exact hmin j hj)
        with ⟨t, ht, hname⟩
      exact ⟨t, ht, by simpa using hname⟩
    · rw [hcw]
      unfold getTables?
      rw [find?_setGroupTables_self _ g _ (mem_entryOrInsert_self fm.groups g)]
      rfl
    · intro g' hg'
      rw [hcw]
      unfold getTables?
      rw [find?_setGroupTables_ne _ g g' _ hg', find?_entryOrInsert_ne fm.groups g g' hg']
    · intro hnd
      rw [List.map_append]
      refine List.Nodup.append hnd (by simp) ?_
      intro a ha hb
      simp only [List.map_cons, List.map_nil, List.mem_singleton] at hb
      subst hb
      rcases List.mem_map.mp ha with ⟨t, ht, hname⟩
      have := List.any_eq_false.mp (by unfold nameUsed at hfree; exact hfree) t ht
      exact this (by simpa using hname)
  · decide

/-- Witness for C2: the untouched-other-group conjunct at a concrete
store. -/
theorem create_table_resolves_name_witness :
    getTables? (create_word_table (⟨[("G", [⟨"T", []⟩, ⟨"T2", []⟩])]⟩ : FlashMemory) "G" "T") "X" =
      getTables? (⟨[("G", [⟨"T", []⟩, ⟨"T2", []⟩])]⟩ : FlashMemory) "X" := by
  obtain ⟨k, -, -, -, h4, -⟩ :=
    (create_table_resolves_name (⟨[("G", [⟨"T", []⟩, ⟨"T2", []⟩])]⟩ : FlashMemory) "G" "T").1
  exact h4 "X" (by decide)

theorem splitAtSpace_no_space (l : List Char) :
    ∀ a b, splitAtSpace l = some (a, b) → ' ' ∉ a := by
  induction l with
  | nil => intro a b h; simp [splitAtSpace] at h
  | cons c cs ih =>
    intro a b h
    simp only [splitAtSpace] at h
    by_cases hc : c = ' '
    · rw [if_pos hc] at h
      simp only [Option.some.injEq, Prod.mk.injEq] at h
      rw [← h.1]
      simp
    · rw [if_neg hc] at h
      cases hsp : splitAtSpace cs with
      | none => rw [hsp] at h; simp at h
      | some p =>
        rw [hsp] at h
        simp only [Option.map_some', Option.some.injEq, Prod.mk.injEq] at h
        rw [← h.1]
        intro hmem
        rcases List.mem_cons.mp hmem with h1 | h2
        · exact hc h1.symm
        · exact ih p.1 p.2 hsp h2

theorem mem_trimChars (l : List Char) (c : Char) (h : c ∈ trimChars l) : c ∈ l := by
  unfold trimChars at h
  rw [List.mem_reverse] at h
  have h1 : c ∈ (l.dropWhile isRustWhitespace).reverse :=
    (List.dropWhile_sublist isRustWhitespace).subset h
  rw [List.mem_reverse] at h1
  exact (List.dropWhile_sublist isRustWhitespace).subset h1

theorem lineToWord_props (g l : String) (w : Word) (h : lineToWord g l = some w) :
    w.english ≠ "" ∧ ' ' ∉ w.english.data ∧ w.chinese ≠ "" ∧ w.group = g := by
  unfold lineToWord at h
  by_cases hb : (trimChars l.data).isEmpty = true
  · rw [if_pos hb] at h; cases h
  · rw [if_neg hb] at h
    cases hsp : splitAtSpace (trimChars l.data) with
    | none => rw [hsp] at h; cases h
    | some p =>
      obtain ⟨a, b⟩ := p
      rw [hsp] at h
      dsimp only at h
      by_cases he : ((trimChars a).isEmpty || (trimChars b).isEmpty) = true
      · rw [if_pos he] at h; cases h
      · rw [if_neg he] at h
        simp only [Option.some.injEq] at h
        subst h
        simp only [Bool.or_eq_true, not_or, List.isEmpty_iff] at he
        refine ⟨?_, ?_, ?_, rfl⟩
        · intro hc
          exact he.1 (by simpa using congrArg String.data hc)
        · intro hmem
          exact splitAtSpace_no_space _ a b hsp (mem_trimChars _ _ hmem)
        · intro hc
          exact he.2 (by simpa using congrArg String.data hc)

theorem mem_parseLinesLoop (g : String) (ls : List String) (w : Word)
    (h : w ∈ parseLinesLoop g ls) : ∃ l ∈ ls, lineToWord g l = some w := by
  induction ls with
  | nil => simp [parseLinesLoop] at h
  | cons l rest ih =>
    simp only [parseLinesLoop] at h
    cases hl : lineToWord g l with
    | some w' =>
      rw [hl] at h
      rcases List.mem_cons.mp h with rfl | h'
      · exact ⟨l, by simp, hl⟩
      · obtain ⟨l', hl', hw⟩ := ih h'
        exact ⟨l', by simp [hl'], hw⟩
    | none =>
      rw [hl] at h
      obtain ⟨l', hl', hw⟩ := ih h
      exact ⟨l', by simp [hl'], hw⟩

theorem parseLinesLoop_eq_filterMap (g : String) (ls : List String) :
    parseLinesLoop g ls = ls.filterMap (lineToWord g) := by
  induction ls with
  | nil => rfl
  | cons l rest ih =>
    simp only [parseLinesLoop, List.filterMap_cons]
    cases lineToWord g l <;> simp [ih]

/-- C10: every word produced by the parser has a non-empty english field
containing no space character, a non-empty chinese field, and the supplied
group as its group field; the output is exactly the in-order filter-map of
the per-line parse over the input's lines, so words appear in the relative
order of their source lines. -/
theorem parse_words_invariants (text g : String) :
    (∀ w ∈ parse_words_from_text text g,
      w.english ≠ "" ∧ ' ' ∉ w.english.data ∧ w.chinese ≠ "" ∧ w.group = g) ∧
    parse_words_from_text text g = (rustLines text).filterMap (lineToWord g) := by
  constructor
  · intro w hw
    obtain ⟨l, _, hl⟩ := mem_parseLinesLoop g (rustLines text) w hw
    exact lineToWord_props g l w hl
  · exact parseLinesLoop_eq_filterMap g (rustLines text)

/-- Witness for C10: the field invariants at a concrete parsed word. -/
theorem parse_words_invariants_witness :
    (⟨"cat", "猫", "g"⟩ : Word).english ≠ "" ∧
      ' ' ∉ (⟨"cat", "猫", "g"⟩ : Word).english.data ∧
      (⟨"cat", "猫", "g"⟩ : Word).chinese ≠ "" ∧
      (⟨"cat", "猫", "g"⟩ : Word).group = "g" :=
  (parse_words_invariants "cat 猫" "g").1 ⟨"cat", "猫", "g"⟩ (by decide)

theorem wordFromJson_toJson (w : Word) : wordFromJson (wordToJson w) = some w := rfl

theorem mapM_wordFromJson (ws : List Word) :
    (ws.map wordToJson).mapM wordFromJson = some ws := by
  induction ws with
  | nil => rfl
  | cons w rest ih =>
    rw [List.map_cons, List.mapM_cons, wordFromJson_toJson, ih]
    rfl

theorem tableFromJson_toJson (t : WordTable) : tableFromJson (tableToJson t) = some t := by
  show ((t.words.map wordToJson).mapM wordFromJson).map
      (fun l => ({ name := t.name, words := l } : WordTable)) = some t
  rw [mapM_wordFromJson]
  rfl

theorem mapM_groupEntryFromJson (gs : List (String × List WordTable)) :
    (gs.map (fun e => (e.1, Json.arr (e.2.map tableToJson)))).mapM groupEntryFromJson =
      some gs := by
  induction gs with
  | nil => rfl
  | cons e rest ih =>
    rw [List.map_cons, List.mapM_cons]
    have he : groupEntryFromJson (e.1, Json.arr (e.2.map tableToJson)) = some e := by
      show ((e.2.map tableToJson).mapM tableFromJson).map (fun l => (e.1, l)) = some e
      have : (e.2.map tableToJson).mapM tableFromJson = some e.2 := by
        induction e.2 with
        | nil => rfl
        | cons t ts iht =>
          rw [List.map_cons, List.mapM_cons, tableFromJson_toJson, iht]
          rfl
      rw [this]
      rfl
    rw [he, ih]
    rfl

theorem foldl_insertGroupEntry (gs : List (String × List WordTable)) :
    ∀ acc, (gs.map Prod.fst).Nodup →
      (∀ k ∈ gs.map Prod.fst, acc.any (fun e => e.1 == k) = false) →
      gs.foldl (fun acc e => insertGroupEntry acc e.1 e.2) acc = acc ++ gs := by
  induction gs with
  | nil => intro acc _ _; simp
  | cons e rest ih =>
    intro acc hnd hdisj
    simp only [List.foldl_cons]
    have hins : insertGroupEntry acc e.1 e.2 = acc ++ [e] := by
      unfold insertGroupEntry
      rw [if_neg (by rw [hdisj e.1 (by simp)]; simp)]
    rw [hins]
    have hnd' : (rest.map Prod.fst).Nodup := by
      simp only [List.map_cons, List.nodup_cons] at hnd
      exact hnd.2
    have hhead : e.1 ∉ rest.map Prod.fst := by
      simp only [List.map_cons, List.nodup_cons] at hnd
      exact hnd.1
    have hdisj' : ∀ k ∈ rest.map Prod.fst,
        (acc ++ [e]).any (fun x => x.1 == k) = false := by
      intro k hk
      rw [List.any_append]
      have h1 : acc.any (fun x => x.1 == k) = false := hdisj k (by simp [hk])
      have h2 : ([e].any fun x => x.1 == k) = false := by
        simp only [List.any_cons, List.any_nil, Bool.or_false]
        rw [beq_eq_false_iff_ne]
        intro hx
        exact hhead (by rw [hx]; exact hk)
      rw [h1, h2]
      rfl
    rw [ih (acc ++ [e]) hnd' hdisj', List.append_assoc]
    rfl

/-- C3: deserializing the serialization of any store (with the HashMap
key-uniqueness invariant) reproduces it exactly — the same group entries,
and for each group the same table sequence with identical names and word
sequences.  Serialization is modelled at the JSON document level; the
textual rendering and file I/O around it are serde_json / std code. -/
theorem store_json_roundtrip (fm : FlashMemory)
    (h : (fm.groups.map Prod.fst).Nodup) :
    flashMemoryFromJson (flashMemoryToJson fm) = some fm := by
  show ((fm.groups.map (fun e => (e.1, Json.arr (e.2.map tableToJson)))).mapM
      groupEntryFromJson).map
        (fun l => (⟨l.foldl (fun acc e => insertGroupEntry acc e.1 e.2) []⟩ :
          FlashMemory)) = some fm
  rw [mapM_groupEntryFromJson]
  show some (⟨fm.groups.foldl (fun acc e => insertGroupEntry acc e.1 e.2) []⟩ :
    FlashMemory) = some fm
  rw [foldl_insertGroupEntry fm.groups [] h (by simp)]
  rfl

/-- Witness for C3: the round trip on a concrete two-group store. -/
theorem store_json_roundtrip_witness :
    flashMemoryFromJson (flashMemoryToJson
        ⟨[("G", [⟨"T", [⟨"cat", "猫", "G"⟩]⟩]), ("H", [])]⟩) =
      some ⟨[("G", [⟨"T", [⟨"cat", "猫", "G"⟩]⟩]), ("H", [])]⟩ :=
  store_json_roundtrip ⟨[("G", [⟨"T", [⟨"cat", "猫", "G"⟩]⟩]), ("H", [])]⟩ (by decide)

theorem add_words_success (fm : FlashMemory) (g tname : String) (ws : List Word)
    (pre post : List WordTable) (tb : WordTable)
    (hts : getTables? fm g = some (pre ++ tb :: post))
    (hpre : ∀ x ∈ pre, x.name ≠ tname) (htb : tb.name = tname) :
    add_words_to_table fm g tname ws =
      (.ok (), ⟨setGroupTables fm.groups g (pre ++ { tb with words := ws } :: post)⟩) ∧
    getTables? (⟨setGroupTables fm.groups g
        (pre ++ { tb with words := ws } :: post)⟩ : FlashMemory) g =
      some (pre ++ { tb with words := ws } :: post) := by
  obtain ⟨e, hfind, heg, hets⟩ := getTables?_some fm g (pre ++ tb :: post) hts
  constructor
  · unfold add_words_to_table
    rw [hfind]
    dsimp only
    rw [hets, replaceWordsFirst_some tname ws pre post tb hpre htb]
  · unfold getTables?
    rw [find?_setGroupTables_self fm.groups g _ (find?_mem_keys _ _ _ hfind)]
    rfl

theorem splitNL_ne_nil (l : List Char) : splitNL l ≠ [] := by
  cases l with
  | nil => simp [splitNL]
  | cons c cs =>
    simp only [splitNL]
    by_cases hc : c = '\n'
    · rw [if_pos hc]; simp
    · rw [if_neg hc]
      cases splitNL cs <;> simp

theorem splitNL_no_newline (l : List Char) (h : '\n' ∉ l) : splitNL l = [l] := by
  induction l with
  | nil => rfl
  | cons c cs ih =>
    have hc : c ≠ '\n' := fun hx => h (by simp [hx])
    have hcs : '\n' ∉ cs := fun hx => h (by simp [hx])
    simp only [splitNL, if_neg hc]
    rw [ih hcs]

theorem splitNL_append (l1 l2 : List Char) (h : '\n' ∉ l1) :
    splitNL (l1 ++ '\n' :: l2) = l1 :: splitNL l2 := by
  induction l1 with
  | nil => simp [splitNL]
  | cons c cs ih =>
    have hc : c ≠ '\n' := fun hx => h (by simp [hx])
    have hcs : '\n' ∉ cs := fun hx => h (by simp [hx])
    rw [List.cons_append]
    simp only [splitNL, if_neg hc]
    rw [ih hcs]

theorem stripCR_no_cr (l : List Char) (h : '\r' ∉ l) : stripCR l = l := by
  unfold stripCR
  rw [if_neg]
  intro hc
  exact h (List.mem_of_getLast?_eq_some hc)

theorem rustLines_joinNL (ls : List String) :
    ls ≠ [] → (∀ l ∈ ls, '\n' ∉ l.data ∧ '\r' ∉ l.data ∧ l ≠ "") →
    rustLines (joinNL ls) = ls := by
  induction ls with
  | nil => intro hne _; exact absurd rfl hne
  | cons l rest ih =>
    intro _ hcond
    cases rest with
    | nil =>
      unfold joinNL rustLines
      rw [splitNL_no_newline l.data (hcond l (by simp)).1]
      unfold rustLinesAux
      rw [if_neg]
      · rfl
      · intro hc
        exact (hcond l (by simp)).2.2 (by simpa using congrArg String.mk hc)
    | cons l2 rest2 =>
      unfold rustLines
      have hdata : (joinNL (l :: l2 :: rest2)).data =
          l.data ++ '\n' :: (joinNL (l2 :: rest2)).data := by
        show ((l ++ "\n") ++ joinNL (l2 :: rest2)).data = _
        simp [List.append_assoc]
      rw [hdata, splitNL_append _ _ (hcond l (by simp)).1]
      have hsne := splitNL_ne_nil (joinNL (l2 :: rest2)).data
      obtain ⟨s, ss, hss⟩ : ∃ s ss,
          splitNL (joinNL (l2 :: rest2)).data = s :: ss := by
        cases hs : splitNL (joinNL (l2 :: rest2)).data with
        | nil => exact absurd hs hsne
        | cons s ss => exact ⟨s, ss, rfl⟩
      rw [hss]
      have harm : rustLinesAux (l.data :: s :: ss) =
          stripCR l.data :: rustLinesAux (s :: ss) := rfl
      rw [harm, stripCR_no_cr _ (hcond l (by simp)).2.1, ← hss]
      have ihr := ih (by simp) (fun x hx => hcond x (by simp [hx]))
      unfold rustLines at ihr
      rw [List.map_cons, ihr]

theorem lineToWord_ne_empty (g l : String) (h : (lineToWord g l).isSome = true) :
    l ≠ "" := by
  intro hl
  subst hl
  have : lineToWord g "" = none := rfl
  rw [this] at h
  cases h

theorem parseLinesLoop_length (g : String) (ls : List String)
    (h : ∀ l ∈ ls, (lineToWord g l).isSome = true) :
    (parseLinesLoop g ls).length = ls.length := by
  induction ls with
  | nil => rfl
  | cons l rest ih =>
    have hl := h l (by simp)
    obtain ⟨w, hw⟩ := Option.isSome_iff_exists.mp hl
    simp only [parseLinesLoop, hw, List.length_cons]
    rw [ih (fun x hx => h x (by simp [hx]))]

/-- C7: the save handler of the table editor processes only the first 100
lines of the pasted text — for any content whose 150 lines each parse to
exactly one word, exactly the 100 words of the first 100 lines are stored
into the selected table — and the more-than-100-lines warning is among
the messages the handler surfaces. -/
theorem parser_line_cap (content g tname : String) (fm : FlashMemory)
    (ls : List String) (pre post : List WordTable) (tb : WordTable)
    (hls : rustLines content = ls) (hlen : ls.length = 150)
    (hvalid : ∀ l ∈ ls,
      (lineToWord g l).isSome = true ∧ '\n' ∉ l.data ∧ '\r' ∉ l.data)
    (hts : getTables? fm g = some (pre ++ tb :: post))
    (hpre : ∀ x ∈ pre, x.name ≠ tname) (htb : tb.name = tname) :
    ((ls.take 100).filterMap (lineToWord g)).length = 100 ∧
    getTables? (saveTableHandler content g tname fm).1 g =
      some (pre ++ ⟨tb.name, (ls.take 100).filterMap (lineToWord g)⟩ :: post) ∧
    "超过100行，仅保存前100行" ∈ (saveTableHandler content g tname fm).2 := by
  have htake : ∀ l ∈ ls.take 100, (lineToWord g l).isSome = true ∧
      '\n' ∉ l.data ∧ '\r' ∉ l.data :=
    fun l hl => hvalid l (List.mem_of_mem_take hl)
  have hlen100 : ((ls.take 100).filterMap (lineToWord g)).length = 100 := by
    rw [← parseLinesLoop_eq_filterMap,
      parseLinesLoop_length g _ (fun l hl => (htake l hl).1), List.length_take, hlen]
    decide
  have hjoin : rustLines (joinNL (ls.take 100)) = ls.take 100 := by
    refine rustLines_joinNL _ ?_ ?_
    · intro hc
      rw [hc] at hlen100
      simp at hlen100
    · intro l hl
      exact ⟨(htake l hl).2.1, (htake l hl).2.2,
        lineToWord_ne_empty g l (htake l hl).1⟩
  have hparse : parse_words_from_text (joinNL (ls.take 100)) g =
      (ls.take 100).filterMap (lineToWord g) := by
    unfold parse_words_from_text
    rw [hjoin, parseLinesLoop_eq_filterMap]
  have hne : ((ls.take 100).filterMap (lineToWord g)).isEmpty = false := by
    cases hx : (ls.take 100).filterMap (lineToWord g) with
    | nil => rw [hx] at hlen100; simp at hlen100
    | cons a t => rfl
  have hadd := add_words_success fm g tname ((ls.take 100).filterMap (lineToWord g))
    pre post tb hts hpre htb
  have hsave : saveTableHandler content g tname fm =
      (⟨setGroupTables fm.groups g
          (pre ++ { tb with words := (ls.take 100).filterMap (lineToWord g) } :: post)⟩,
        ["超过100行，仅保存前100行",
          "成功保存 " ++ natRepr ((ls.take 100).filterMap (lineToWord g)).length ++
            " 个单词"]) := by
    unfold saveTableHandler
    dsimp only
    rw [hls, hlen, hparse]
    rw [if_neg (show ¬(((ls.take 100).filterMap (lineToWord g)).isEmpty = true) by
      rw [hne]; simp)]
    rw [hadd.1]
    rw [if_pos (show (150 : Nat) > 100 by norm_num)]
    rfl
  refine ⟨hlen100, ?_, ?_⟩
  · rw [hsave]
    exact hadd.2
  · rw [hsave]
    simp

/-- Witness for C7: 150 copies of the valid line `a b` pasted over a
concrete one-table store. -/
theorem parser_line_cap_witness :
    (((List.replicate 150 "a b").take 100).filterMap (lineToWord "g")).length = 100 ∧
    getTables? (saveTableHandler (joinNL (List.replicate 150 "a b")) "g" "t"
        ⟨[("g", [⟨"t", []⟩])]⟩).1 "g" =
      some [⟨"t", ((List.replicate 150 "a b").take 100).filterMap (lineToWord "g")⟩] ∧
    "超过100行，仅保存前100行" ∈ (saveTableHandler (joinNL (List.replicate 150 "a b")) "g" "t"
        ⟨[("g", [⟨"t", []⟩])]⟩).2 :=
  parser_line_cap (joinNL (List.replicate 150 "a b")) "g" "t" ⟨[("g", [⟨"t", []⟩])]⟩
    (List.replicate 150 "a b") [] [] ⟨"t", []⟩
    (by
      refine rustLines_joinNL _ (by simp) ?_
      intro l hl
      rw [List.eq_of_mem_replicate hl]
      exact ⟨by decide, by decide, by decide⟩)
    (by simp)
    (by
      intro l hl
      rw [List.eq_of_mem_replicate hl]
      exact ⟨by decide, by decide, by decide⟩)
    (by decide) (by simp) rfl

end FlashSpec
